import Mathlib

/-!
A shallow embedding of the chess rules engine in `src/chess.py`
(classes `Piece`, `Pawn`, `Rook`, `Knight`, `Bishop`, `Queen`, `King`,
`Board`, and the engine-relevant parts of `Game`).

The Python code mutates a shared `Board` object in place; here every
mutation is modelled by explicit state passing with value semantics.
The grid is a total function `Int → Int → Option Piece` (cells outside
`[0,7] × [0,7]` of a well-formed board are `none`); each Python
assignment `grid[r][c] = x` becomes a functional update `setCell`.
A Python `Piece` object carries a cached `position` and a `has_moved`
flag; both are fields of the Lean `Piece` record, and an in-place
mutation of a piece object that currently sits in a grid cell is
modelled by rewriting that cell with the updated record.
-/

namespace Chess

inductive Color where
  | white
  | black
deriving DecidableEq

/-- `'black' if color == 'white' else 'white'` as used throughout the source. -/
def opposite : Color → Color
  | Color.white => Color.black
  | Color.black => Color.white

inductive PieceKind where
  | pawn
  | rook
  | knight
  | bishop
  | queen
  | king
deriving DecidableEq

/-- A chess piece: the Python object's class tag, `color`, cached
`position` field and `has_moved` flag. -/
structure Piece where
  kind : PieceKind
  color : Color
  pos : Int × Int
  hasMoved : Bool
deriving DecidableEq

/-- The board: the 8×8 `grid` of optional pieces (as a total function on
integer coordinates) plus the `last_move` record used for en passant. -/
structure Board where
  grid : Int → Int → Option Piece
  lastMove : Option ((Int × Int) × (Int × Int) × Piece)

/-- `Board.get_piece`. -/
def getPiece (b : Board) (r c : Int) : Option Piece :=
  b.grid r c

/-- A single grid-cell assignment `grid[r][c] = v`. -/
def setCell (g : Int → Int → Option Piece) (r c : Int) (v : Option Piece) :
    Int → Int → Option Piece :=
  fun r' c' => if r' = r ∧ c' = c then v else g r' c'

/-- `Piece.is_valid_position`. -/
def isValidPosition (r c : Int) : Bool :=
  decide (0 ≤ r ∧ r < 8 ∧ 0 ≤ c ∧ c < 8)

/-- The 64 board squares in the row-major order of the Python nested
`for row in range(8): for col in range(8)` scans. -/
def squaresList : List (Int × Int) :=
  (List.range 8).flatMap
    (fun (r : Nat) => (List.range 8).map (fun (c : Nat) => ((r : Int), (c : Int))))

/-- `direction = -1 if self.color == 'white' else 1`, as computed in the
pawn move generator and the en passant helper. -/
def pawnDirection (c : Color) : Int :=
  if c = Color.white then -1 else 1

/-- `Board.get_en_passant_moves`. -/
def getEnPassantMoves (b : Board) (pawn : Piece) : List (Int × Int) :=
  match b.lastMove with
  | none => []
  | some (lastFrom, lastTo, lastPiece) =>
    if lastPiece.kind ≠ PieceKind.pawn then []
    else if (lastFrom.1 - lastTo.1).natAbs ≠ 2 then []
    else if pawn.pos.1 ≠ lastTo.1 ∨ (pawn.pos.2 - lastTo.2).natAbs ≠ 1 then []
    else if pawn.color = lastPiece.color then []
    else
      [(pawn.pos.1 + pawnDirection pawn.color, lastTo.2)]

/-- `Pawn.get_possible_moves`: forward step(s), diagonal captures, en passant. -/
def pawnMoves (p : Piece) (b : Board) : List (Int × Int) :=
  let row := p.pos.1
  let col := p.pos.2
  let dir : Int := pawnDirection p.color
  let forward :=
    if isValidPosition (row + dir) col then
      if getPiece b (row + dir) col = none then
        (row + dir, col) ::
          (if ¬p.hasMoved then
            (if getPiece b (row + 2 * dir) col = none then [(row + 2 * dir, col)] else [])
          else [])
      else []
    else []
  let captures := [(-1 : Int), 1].filterMap (fun dc =>
    if isValidPosition (row + dir) (col + dc) then
      match getPiece b (row + dir) (col + dc) with
      | some t => if t.color ≠ p.color then some (row + dir, col + dc) else none
      | none => none
    else none)
  forward ++ captures ++ getEnPassantMoves b p

/-- One sliding direction: `for i in range(1, 8)` with the `break` logic of
the Rook/Bishop/Queen generators, implemented with explicit fuel. -/
def slideGo (b : Board) (c : Color) (row col dr dc : Int) : Nat → Int → List (Int × Int)
  | 0, _ => []
  | fuel + 1, i =>
    let nr := row + dr * i
    let nc := col + dc * i
    if isValidPosition nr nc then
      match getPiece b nr nc with
      | none => (nr, nc) :: slideGo b c row col dr dc fuel (i + 1)
      | some t => if t.color ≠ c then [(nr, nc)] else []
    else []

def slide (b : Board) (c : Color) (row col dr dc : Int) : List (Int × Int) :=
  slideGo b c row col dr dc 7 1

/-- `Rook.get_possible_moves`. -/
def rookMoves (p : Piece) (b : Board) : List (Int × Int) :=
  [((-1 : Int), (0 : Int)), (1, 0), (0, -1), (0, 1)].flatMap
    (fun d => slide b p.color p.pos.1 p.pos.2 d.1 d.2)

/-- `Bishop.get_possible_moves`. -/
def bishopMoves (p : Piece) (b : Board) : List (Int × Int) :=
  [((-1 : Int), (-1 : Int)), (-1, 1), (1, -1), (1, 1)].flatMap
    (fun d => slide b p.color p.pos.1 p.pos.2 d.1 d.2)

/-- `Queen.get_possible_moves`. -/
def queenMoves (p : Piece) (b : Board) : List (Int × Int) :=
  [((-1 : Int), (0 : Int)), (1, 0), (0, -1), (0, 1),
   (-1, -1), (-1, 1), (1, -1), (1, 1)].flatMap
    (fun d => slide b p.color p.pos.1 p.pos.2 d.1 d.2)

/-- `Knight.get_possible_moves`. -/
def knightMoves (p : Piece) (b : Board) : List (Int × Int) :=
  [((-2 : Int), (-1 : Int)), (-2, 1), (-1, -2), (-1, 2),
   (1, -2), (1, 2), (2, -1), (2, 1)].filterMap (fun d =>
    let nr := p.pos.1 + d.1
    let nc := p.pos.2 + d.2
    if isValidPosition nr nc then
      match getPiece b nr nc with
      | none => some (nr, nc)
      | some t => if t.color ≠ p.color then some (nr, nc) else none
    else none)

/-- The 8 one-square king moves of `King.get_possible_moves` (before
castling is appended). -/
def kingAdjacentMoves (p : Piece) (b : Board) : List (Int × Int) :=
  [((-1 : Int), (-1 : Int)), (-1, 0), (-1, 1),
   (0, -1), (0, 1),
   (1, -1), (1, 0), (1, 1)].filterMap (fun d =>
    let nr := p.pos.1 + d.1
    let nc := p.pos.2 + d.2
    if isValidPosition nr nc then
      match getPiece b nr nc with
      | none => some (nr, nc)
      | some t => if t.color ≠ p.color then some (nr, nc) else none
    else none)

/-- The fixed 8-square adjacency list that `Board.is_position_under_attack`
builds for an opposing King at cell `(r, c)` (`king_moves`): no bounds or
occupancy filtering, exactly as in the source. -/
def kingAdjacent (r c : Int) : List (Int × Int) :=
  [(r - 1, c - 1), (r - 1, c), (r - 1, c + 1),
   (r, c - 1), (r, c + 1),
   (r + 1, c - 1), (r + 1, c), (r + 1, c + 1)]

/-- The move generator that `Board.is_position_under_attack` invokes for a
non-King opposing piece (`piece.get_possible_moves(self)`), dispatched by
class tag.  The King arm is never consulted by the attack scan (the scan
special-cases Kings), so it is `[]` here; the full King generator is
`getPossibleMoves` below. -/
def nonKingMoves (p : Piece) (b : Board) : List (Int × Int) :=
  match p.kind with
  | PieceKind.pawn => pawnMoves p b
  | PieceKind.rook => rookMoves p b
  | PieceKind.knight => knightMoves p b
  | PieceKind.bishop => bishopMoves p b
  | PieceKind.queen => queenMoves p b
  | PieceKind.king => []

/-- `Board.is_position_under_attack`.  Scans every square; an opposing King
is tested only against the 8 fixed adjacency offsets, every other opposing
piece via its full move generator. -/
def isPositionUnderAttack (b : Board) (row col : Int) (color : Color) : Bool :=
  squaresList.any (fun rc =>
    match getPiece b rc.1 rc.2 with
    | some piece =>
      if piece.color = opposite color then
        if piece.kind = PieceKind.king then
          decide ((row, col) ∈ kingAdjacent rc.1 rc.2)
        else
          decide ((row, col) ∈ nonKingMoves piece b)
      else false
    | none => false)

/-- `Board.get_castling_moves`. -/
def getCastlingMoves (b : Board) (king : Piece) : List (Int × Int) :=
  if king.hasMoved then []
  else
    let row := king.pos.1
    let col := king.pos.2
    let kingside :=
      match getPiece b row 7 with
      | some rk =>
        if rk.kind = PieceKind.rook ∧ ¬rk.hasMoved then
          if getPiece b row 5 = none ∧ getPiece b row 6 = none then
            if isPositionUnderAttack b row col king.color = false ∧
                isPositionUnderAttack b row 5 king.color = false ∧
                isPositionUnderAttack b row 6 king.color = false then
              [(row, 6)]
            else []
          else []
        else []
      | none => []
    let queenside :=
      match getPiece b row 0 with
      | some rk =>
        if rk.kind = PieceKind.rook ∧ ¬rk.hasMoved then
          if getPiece b row 1 = none ∧ getPiece b row 2 = none ∧
              getPiece b row 3 = none then
            if isPositionUnderAttack b row col king.color = false ∧
                isPositionUnderAttack b row 3 king.color = false ∧
                isPositionUnderAttack b row 2 king.color = false then
              [(row, 2)]
            else []
          else []
        else []
      | none => []
    kingside ++ queenside

/-- `King.get_possible_moves`: adjacency moves plus castling candidates. -/
def kingMoves (p : Piece) (b : Board) : List (Int × Int) :=
  kingAdjacentMoves p b ++ getCastlingMoves b p

/-- `piece.get_possible_moves(board)`: dynamic dispatch on the piece class. -/
def getPossibleMoves (p : Piece) (b : Board) : List (Int × Int) :=
  match p.kind with
  | PieceKind.pawn => pawnMoves p b
  | PieceKind.rook => rookMoves p b
  | PieceKind.knight => knightMoves p b
  | PieceKind.bishop => bishopMoves p b
  | PieceKind.queen => queenMoves p b
  | PieceKind.king => kingMoves p b

/-- The king-locating scan of `Board.is_in_check`: first square in
row-major order holding a King of the given color. -/
def findKing (b : Board) (color : Color) : Option (Int × Int) :=
  squaresList.find? (fun rc =>
    match getPiece b rc.1 rc.2 with
    | some p => decide (p.kind = PieceKind.king ∧ p.color = color)
    | none => false)

/-- `Board.is_in_check`. -/
def isInCheck (b : Board) (color : Color) : Bool :=
  match findKing b color with
  | none => false
  | some kp => isPositionUnderAttack b kp.1 kp.2 color

/-- `Board.is_move_legal`, with the board threaded explicitly: the Python
method temporarily mutates the grid (including an en-passant removal),
queries `is_in_check`, then undoes every mutation.  The returned board is
the board as left behind by the call. -/
def isMoveLegalS (b : Board) (fromP toP : Int × Int) : Bool × Board :=
  match getPiece b fromP.1 fromP.2 with
  | none => (false, b)
  | some piece =>
    let captured := getPiece b toP.1 toP.2
    let ep : Option Piece × (Int → Int → Option Piece) :=
      if piece.kind = PieceKind.pawn ∧ toP.2 ≠ fromP.2 ∧ captured = none then
        (getPiece b fromP.1 toP.2, setCell b.grid fromP.1 toP.2 none)
      else (none, b.grid)
    let g2 := setCell ep.2 toP.1 toP.2 (some { piece with pos := toP })
    let g3 := setCell g2 fromP.1 fromP.2 none
    let inCheck := isInCheck { grid := g3, lastMove := b.lastMove } piece.color
    let g4 := setCell g3 fromP.1 fromP.2 (some piece)
    let g5 := setCell g4 toP.1 toP.2 captured
    let g6 :=
      match ep.1 with
      | some e => setCell g5 fromP.1 toP.2 (some e)
      | none => g5
    (!inCheck, { grid := g6, lastMove := b.lastMove })

/-- The boolean result of `Board.is_move_legal`. -/
def isMoveLegal (b : Board) (fromP toP : Int × Int) : Bool :=
  (isMoveLegalS b fromP toP).1

/-- The legality filter of `Game.select_piece` / `Board.get_all_valid_moves`
with the board threaded through the successive `is_move_legal` calls. -/
def legalFilterS (b : Board) (fromP : Int × Int) :
    List (Int × Int) → List (Int × Int) × Board
  | [] => ([], b)
  | m :: ms =>
    let r1 := isMoveLegalS b fromP m
    let rest := legalFilterS r1.2 fromP ms
    (if r1.1 then m :: rest.1 else rest.1, rest.2)

/-- The per-piece legal-move list built by `Board.get_all_valid_moves`
(pseudo-legal moves filtered by `is_move_legal(piece.position, move)`). -/
def legalMovesFor (b : Board) (p : Piece) : List (Int × Int) :=
  (getPossibleMoves p b).filter (fun m => isMoveLegal b p.pos m)

/-- `Board.get_all_valid_moves`: the dictionary of pieces of `color` with a
nonempty filtered move list, keyed by `piece.position`, in row-major scan
order. -/
def getAllValidMoves (b : Board) (color : Color) : List ((Int × Int) × List (Int × Int)) :=
  squaresList.filterMap (fun rc =>
    match getPiece b rc.1 rc.2 with
    | some p =>
      if p.color = color then
        let fm := legalMovesFor b p
        if fm.isEmpty then none else some (p.pos, fm)
      else none
    | none => none)

/-- `Board.is_checkmate`. -/
def isCheckmate (b : Board) (color : Color) : Bool :=
  if isInCheck b color then (getAllValidMoves b color).isEmpty else false

/-- `Board.is_stalemate`. -/
def isStalemate (b : Board) (color : Color) : Bool :=
  if isInCheck b color then false else (getAllValidMoves b color).isEmpty

/-- One back-rank cell of `Board.setup_pieces` (Rook-Knight-Bishop-Queen-
King-Bishop-Knight-Rook). -/
def backRank (color : Color) (r c : Int) : Option Piece :=
  if c = 0 ∨ c = 7 then some ⟨PieceKind.rook, color, (r, c), false⟩
  else if c = 1 ∨ c = 6 then some ⟨PieceKind.knight, color, (r, c), false⟩
  else if c = 2 ∨ c = 5 then some ⟨PieceKind.bishop, color, (r, c), false⟩
  else if c = 3 then some ⟨PieceKind.queen, color, (r, c), false⟩
  else if c = 4 then some ⟨PieceKind.king, color, (r, c), false⟩
  else none

/-- `Board.__init__` + `Board.setup_pieces`: black pawns on row 1, white
pawns on row 6, back ranks on rows 0 and 7, `last_move = None`. -/
def initBoard : Board :=
  { grid := fun r c =>
      if 0 ≤ c ∧ c < 8 then
        if r = 1 then some ⟨PieceKind.pawn, Color.black, (1, c), false⟩
        else if r = 6 then some ⟨PieceKind.pawn, Color.white, (6, c), false⟩
        else if r = 0 then backRank Color.black 0 c
        else if r = 7 then backRank Color.white 7 c
        else none
      else none,
    lastMove := none }

/-- The en-passant-capture removal step of `Board.move_piece`: if the mover
is a Pawn changing column onto an empty destination, clear the square at
`(from_row, to_col)`. -/
def epRemovalGrid (b : Board) (piece : Piece) (fromP toP : Int × Int) :
    Int → Int → Option Piece :=
  if piece.kind = PieceKind.pawn ∧ toP.2 ≠ fromP.2 ∧ getPiece b toP.1 toP.2 = none then
    setCell b.grid fromP.1 toP.2 none
  else b.grid

/-- The castling step of `Board.move_piece`: if the mover is a King moving
two columns, relocate the corner rook (updating its cached position and its
`has_moved` flag).  The source reads `grid[from_row][7]` / `grid[from_row][0]`
without a `None` check; on a board where that cell is empty the Python code
would fail, so that (unreachable-through-legal-play) case is modelled as a
no-op. -/
def castlingRookGrid (g1 : Int → Int → Option Piece) (piece : Piece)
    (fromP toP : Int × Int) : Int → Int → Option Piece :=
  if piece.kind = PieceKind.king ∧ (toP.2 - fromP.2).natAbs = 2 then
    if toP.2 > fromP.2 then
      match g1 fromP.1 7 with
      | some rk =>
        setCell (setCell g1 fromP.1 7 none) fromP.1 5
          (some { rk with pos := (fromP.1, 5), hasMoved := true })
      | none => g1
    else
      match g1 fromP.1 0 with
      | some rk =>
        setCell (setCell g1 fromP.1 0 none) fromP.1 3
          (some { rk with pos := (fromP.1, 3), hasMoved := true })
      | none => g1
  else g1

/-- `Board.move_piece`: en-passant removal, castling rook relocation,
relocation of the mover (updating its cached position and `has_moved`),
and the `last_move` overwrite.  Returns the Python boolean result together
with the resulting board. -/
def movePiece (b : Board) (fromP toP : Int × Int) : Bool × Board :=
  match getPiece b fromP.1 fromP.2 with
  | none => (false, b)
  | some piece =>
    let g1 := epRemovalGrid b piece fromP toP
    let g2 := castlingRookGrid g1 piece fromP toP
    let moved : Piece := { piece with pos := toP, hasMoved := true }
    let g3 := setCell g2 toP.1 toP.2 (some moved)
    let g4 := setCell g3 fromP.1 fromP.2 none
    (true, { grid := g4, lastMove := some (fromP, toP, moved) })

/-- The engine-relevant state of the `Game` class. -/
structure Game where
  board : Board
  currentTurn : Color
  gameOver : Bool
  winner : Option Color

/-- `Game.switch_turn`. -/
def switchTurn (g : Game) : Game :=
  let t := opposite g.currentTurn
  if isCheckmate g.board t then
    { g with currentTurn := t, gameOver := true, winner := some (opposite t) }
  else if isStalemate g.board t then
    { g with currentTurn := t, gameOver := true, winner := none }
  else
    { g with currentTurn := t }

/-- `Game.make_move`: auto-promotion of a pawn reaching the opposite home
rank into a fresh Queen, otherwise a plain `move_piece`, followed by
`switch_turn`. -/
def makeMove (g : Game) (fromP toP : Int × Int) : Game :=
  match getPiece g.board fromP.1 fromP.2 with
  | some piece =>
    if piece.kind = PieceKind.pawn ∧
        ((piece.color = Color.white ∧ toP.1 = 0) ∨ (piece.color = Color.black ∧ toP.1 = 7)) then
      let b1 := (movePiece g.board fromP toP).2
      let q : Piece := ⟨PieceKind.queen, piece.color, toP, false⟩
      let b2 : Board := { b1 with grid := setCell b1.grid toP.1 toP.2 (some q) }
      switchTurn { g with board := b2 }
    else
      switchTurn { g with board := (movePiece g.board fromP toP).2 }
  | none =>
    switchTurn { g with board := (movePiece g.board fromP toP).2 }

/-- `Game.__init__`: fresh board, White to move. -/
def initGame : Game :=
  { board := initBoard, currentTurn := Color.white, gameOver := false, winner := none }

/-- Game states reachable through `Game.handle_click` / `Game.make_move`:
the clicked piece belongs to the side to move, the destination is in the
`is_move_legal`-filtered move list computed by `Game.select_piece`, and the
game is not over. -/
inductive Reachable : Game → Prop
  | init : Reachable initGame
  | step (g : Game) (fromP toP : Int × Int) (p : Piece) :
      Reachable g →
      getPiece g.board fromP.1 fromP.2 = some p →
      p.color = g.currentTurn →
      toP ∈ (getPossibleMoves p g.board).filter (fun m => isMoveLegal g.board fromP m) →
      g.gameOver = false →
      Reachable (makeMove g fromP toP)

end Chess

namespace Chess

theorem setCell_apply (g : Int → Int → Option Piece) (r c : Int) (v : Option Piece)
    (r' c' : Int) : setCell g r c v r' c' = if r' = r ∧ c' = c then v else g r' c' := rfl

theorem mem_squaresList (x : Int × Int) :
    x ∈ squaresList ↔ 0 ≤ x.1 ∧ x.1 < 8 ∧ 0 ≤ x.2 ∧ x.2 < 8 := by
  constructor
  · intro hx
    rw [squaresList, List.mem_flatMap] at hx
    obtain ⟨r, hr, hx⟩ := hx
    rw [List.mem_map] at hx
    obtain ⟨c, hc, h⟩ := hx
    rw [List.mem_range] at hr hc
    subst h
    refine ⟨by omega, by omega, by omega, by omega⟩
  · rintro ⟨h1, h2, h3, h4⟩
    rw [squaresList, List.mem_flatMap]
    refine ⟨x.1.toNat, by rw [List.mem_range]; omega, ?_⟩
    rw [List.mem_map]
    refine ⟨x.2.toNat, by rw [List.mem_range]; omega, ?_⟩
    obtain ⟨a, b⟩ := x
    rw [Prod.mk.injEq]
    simp only
    constructor <;> omega

theorem isMoveLegalS_board (b : Board) (fromP toP : Int × Int) (p : Piece)
    (h : getPiece b fromP.1 fromP.2 = some p) :
    (isMoveLegalS b fromP toP).2 = b := by
  obtain ⟨g, lm⟩ := b
  simp only [isMoveLegalS, h]
  simp only [Board.mk.injEq, and_true]
  by_cases hC : p.kind = PieceKind.pawn ∧ toP.2 ≠ fromP.2 ∧
      getPiece ⟨g, lm⟩ toP.1 toP.2 = none
  · rcases he : getPiece (⟨g, lm⟩ : Board) fromP.1 toP.2 with _ | e
    · simp only [if_pos hC, he]
      funext r c
      simp only [setCell_apply]
      split_ifs with h1 h2 h3 h4 <;>
        first
        | (obtain ⟨rfl, rfl⟩ := h1; simp_all [getPiece])
        | (obtain ⟨rfl, rfl⟩ := h2; simp_all [getPiece])
        | (obtain ⟨rfl, rfl⟩ := h3; simp_all [getPiece])
        | (obtain ⟨rfl, rfl⟩ := h4; simp_all [getPiece])
        | rfl
    · simp only [if_pos hC, he]
      funext r c
      simp only [setCell_apply]
      split_ifs with h1 h2 h3 h4 h5 <;>
        first
        | (obtain ⟨rfl, rfl⟩ := h1; simp_all [getPiece])
        | (obtain ⟨rfl, rfl⟩ := h2; simp_all [getPiece])
        | (obtain ⟨rfl, rfl⟩ := h3; simp_all [getPiece])
        | (obtain ⟨rfl, rfl⟩ := h4; simp_all [getPiece])
        | (obtain ⟨rfl, rfl⟩ := h5; simp_all [getPiece])
        | rfl
  · simp only [if_neg hC]
    funext r c
    simp only [setCell_apply]
    split_ifs with h1 h2 h3 <;>
      first
      | (obtain ⟨rfl, rfl⟩ := h1; simp_all [getPiece])
      | (obtain ⟨rfl, rfl⟩ := h2; simp_all [getPiece])
      | (obtain ⟨rfl, rfl⟩ := h3; simp_all [getPiece])
      | rfl

/-- C1: evaluating move legality is a pure query on Board State.
`is_move_legal` restores the simulated mover to its original square with its
original cached position field, restores any captured piece — including an
en-passant-removed pawn — to its exact prior square, and touches neither
`last_move` nor any `has_moved` flag, so the board it leaves behind equals
the input board; consequently the `is_move_legal` filter loop that
`select_piece`/`get_all_valid_moves` run over a piece's pseudo-legal moves
also leaves the board exactly as it was. -/
theorem is_move_legal_no_residue (b : Board) (fromP toP : Int × Int) (p : Piece)
    (h : getPiece b fromP.1 fromP.2 = some p) :
    (isMoveLegalS b fromP toP).2 = b ∧
    ∀ ms : List (Int × Int), (legalFilterS b fromP ms).2 = b := by
  refine ⟨isMoveLegalS_board b fromP toP p h, ?_⟩
  intro ms
  induction ms with
  | nil => rfl
  | cons m ms ih =>
    simp only [legalFilterS]
    rw [isMoveLegalS_board b fromP m p h]
    exact ih

theorem is_move_legal_no_residue_witness :
    getPiece initBoard 6 4 = some ⟨PieceKind.pawn, Color.white, (6, 4), false⟩ ∧
    (isMoveLegalS initBoard (6, 4) (5, 4)).2 = initBoard :=
  ⟨by decide,
    (is_move_legal_no_residue initBoard (6, 4) (5, 4)
      ⟨PieceKind.pawn, Color.white, (6, 4), false⟩ (by decide)).1⟩

theorem isPositionUnderAttack_iff (b : Board) (row col : Int) (color : Color) :
    isPositionUnderAttack b row col color = true ↔
    ∃ r c : Int, (0 ≤ r ∧ r < 8 ∧ 0 ≤ c ∧ c < 8) ∧ ∃ p : Piece,
      getPiece b r c = some p ∧ p.color = opposite color ∧
      ((p.kind = PieceKind.king ∧ (row, col) ∈ kingAdjacent r c) ∨
       (p.kind ≠ PieceKind.king ∧ (row, col) ∈ nonKingMoves p b)) := by
  rw [isPositionUnderAttack, List.any_eq_true]
  constructor
  · rintro ⟨rc, hmem, hpred⟩
    obtain ⟨r, c⟩ := rc
    rw [mem_squaresList] at hmem
    refine ⟨r, c, hmem, ?_⟩
    rcases hg : getPiece b r c with _ | p
    · rw [hg] at hpred
      cases hpred
    · rw [hg] at hpred
      by_cases hcol : p.color = opposite color
      · by_cases hk : p.kind = PieceKind.king
        · refine ⟨p, rfl, hcol, Or.inl ⟨hk, ?_⟩⟩
          simpa [hcol, hk] using hpred
        · refine ⟨p, rfl, hcol, Or.inr ⟨hk, ?_⟩⟩
          simpa [hcol, hk] using hpred
      · simp [hcol] at hpred
  · rintro ⟨r, c, hb, p, hg, hcol, hcase⟩
    refine ⟨(r, c), (mem_squaresList _).mpr (by exact hb), ?_⟩
    rcases hcase with ⟨hk, hmem⟩ | ⟨hk, hmem⟩ <;> simp [hg, hcol, hk, hmem]

/-- C3: attack detection and king move generation terminate on every board
because the recursion is stratified exactly as the source arranges it: when
the attack scan meets an opposing King it tests only the 8 fixed adjacency
offsets (`kingAdjacent`) and never invokes the King move generator (whose
castling branch re-enters attack detection), while for every other piece
kind it invokes the full move generator, which coincides with
`get_possible_moves` and never calls attack detection (the Pawn, Rook,
Knight, Bishop and Queen generators are defined without reference to the
attack detector, so the definitions stratify and every call terminates by
construction).  The first conjunct
characterises the whole scan; the second states the non-King generator used
by the scan is the full dispatch. -/
theorem attack_detection_stratified :
    (∀ (b : Board) (row col : Int) (color : Color),
      isPositionUnderAttack b row col color = true ↔
      ∃ r c : Int, (0 ≤ r ∧ r < 8 ∧ 0 ≤ c ∧ c < 8) ∧ ∃ p : Piece,
        getPiece b r c = some p ∧ p.color = opposite color ∧
        ((p.kind = PieceKind.king ∧ (row, col) ∈ kingAdjacent r c) ∨
         (p.kind ≠ PieceKind.king ∧ (row, col) ∈ nonKingMoves p b))) ∧
    (∀ (q : Piece) (b : Board), q.kind ≠ PieceKind.king →
      nonKingMoves q b = getPossibleMoves q b) := by
  refine ⟨isPositionUnderAttack_iff, ?_⟩
  rintro ⟨kk, kc, kp, khm⟩ b hk
  cases kk
  case pawn => rfl
  case rook => rfl
  case knight => rfl
  case bishop => rfl
  case queen => rfl
  case king => exact absurd rfl hk

def rookOnlyBoard : Board :=
  { grid := fun r c =>
      if r = 0 ∧ c = 0 then some ⟨PieceKind.rook, Color.black, (0, 0), true⟩ else none,
    lastMove := none }

theorem attack_detection_stratified_witness :
    isPositionUnderAttack rookOnlyBoard 5 0 Color.white = true ∧
    nonKingMoves ⟨PieceKind.knight, Color.black, (0, 0), false⟩ rookOnlyBoard =
      getPossibleMoves ⟨PieceKind.knight, Color.black, (0, 0), false⟩ rookOnlyBoard :=
  ⟨(attack_detection_stratified.1 rookOnlyBoard 5 0 Color.white).mpr
      ⟨0, 0, by decide, ⟨PieceKind.rook, Color.black, (0, 0), true⟩, by decide, rfl,
        Or.inr ⟨by decide, by decide⟩⟩,
    attack_detection_stratified.2 ⟨PieceKind.knight, Color.black, (0, 0), false⟩
      rookOnlyBoard (by decide)⟩

def emptyBoard : Board := { grid := fun _ _ => none, lastMove := none }

/-- C9: on a board holding no King of the queried color, `is_in_check`
returns `False` rather than failing (the king-locating scan finds nothing
and the method short-circuits); consequently `is_checkmate` is `False` and
`is_stalemate` reduces to that side having no valid moves. -/
theorem no_king_no_check (b : Board) (color : Color)
    (h : ∀ rc ∈ squaresList, ∀ p : Piece, getPiece b rc.1 rc.2 = some p →
      ¬(p.kind = PieceKind.king ∧ p.color = color)) :
    isInCheck b color = false ∧ isCheckmate b color = false ∧
    isStalemate b color = (getAllValidMoves b color).isEmpty := by
  have hfk : findKing b color = none := by
    rw [findKing, List.find?_eq_none]
    intro rc hrc
    rcases hg : getPiece b rc.1 rc.2 with _ | p
    · simp [hg]
    · simp only [hg]
      simpa using h rc hrc p hg
  have hic : isInCheck b color = false := by rw [isInCheck, hfk]
  refine ⟨hic, ?_, ?_⟩
  · rw [isCheckmate, hic]
    simp
  · rw [isStalemate, hic]
    simp

theorem no_king_no_check_witness :
    isInCheck emptyBoard Color.white = false :=
  (no_king_no_check emptyBoard Color.white
    (fun rc hrc p hp => by simp [getPiece, emptyBoard] at hp)).1

theorem allValidMoves_nil_forall (b : Board) (color : Color)
    (hnil : getAllValidMoves b color = []) :
    ∀ r c : Int, ∀ p : Piece, (r, c) ∈ squaresList → getPiece b r c = some p →
      p.color = color → legalMovesFor b p = [] := by
  intro r c p hmem hg hcol
  have hf := List.filterMap_eq_nil_iff.mp hnil (r, c) hmem
  simp only [hg, hcol, if_true] at hf
  by_cases hfm : (legalMovesFor b p).isEmpty
  · simpa using hfm
  · rw [if_neg hfm] at hf
    cases hf

/-- C7: for every board and side, `is_checkmate` and `is_stalemate` are
never simultaneously true; checkmate additionally requires the side to be
in check, stalemate requires it not to be, and whenever either verdict
holds every piece of that side has an empty legal-move list. -/
theorem checkmate_stalemate_exclusive (b : Board) (color : Color) :
    (isCheckmate b color && isStalemate b color) = false ∧
    (isCheckmate b color = true → isInCheck b color = true) ∧
    (isStalemate b color = true → isInCheck b color = false) ∧
    (∀ r c : Int, ∀ p : Piece, (isCheckmate b color || isStalemate b color) = true →
      (r, c) ∈ squaresList → getPiece b r c = some p → p.color = color →
      legalMovesFor b p = []) := by
  by_cases hic : isInCheck b color = true
  · have hsm : isStalemate b color = false := by rw [isStalemate, if_pos hic]
    refine ⟨?_, ?_, ?_, ?_⟩
    · rw [hsm, Bool.and_false]
    · exact fun _ => hic
    · intro h
      rw [hsm] at h
      cases h
    · intro r c p hor hmem hg hcol
      rw [hsm, Bool.or_false, isCheckmate, if_pos hic] at hor
      exact allValidMoves_nil_forall b color (by simpa using hor) r c p hmem hg hcol
  · have hic' : isInCheck b color = false := by
      cases h : isInCheck b color
      · rfl
      · exact absurd h hic
    have hcm : isCheckmate b color = false := by rw [isCheckmate, hic']; simp
    refine ⟨?_, ?_, ?_, ?_⟩
    · rw [hcm, Bool.false_and]
    · intro h
      rw [hcm] at h
      cases h
    · exact fun _ => hic'
    · intro r c p hor hmem hg hcol
      rw [hcm, Bool.false_or, isStalemate, hic'] at hor
      simp at hor
      exact allValidMoves_nil_forall b color (by simpa using hor) r c p hmem hg hcol

def mateBoard : Board :=
  { grid := fun r c =>
      if r = 0 ∧ c = 0 then some ⟨PieceKind.king, Color.black, (0, 0), true⟩
      else if r = 1 ∧ c = 1 then some ⟨PieceKind.queen, Color.white, (1, 1), true⟩
      else if r = 2 ∧ c = 2 then some ⟨PieceKind.king, Color.white, (2, 2), true⟩
      else none,
    lastMove := none }

theorem checkmate_stalemate_exclusive_witness :
    isInCheck mateBoard Color.black = true ∧
    legalMovesFor mateBoard ⟨PieceKind.king, Color.black, (0, 0), true⟩ = [] :=
  ⟨(checkmate_stalemate_exclusive mateBoard Color.black).2.1 (by decide),
    (checkmate_stalemate_exclusive mateBoard Color.black).2.2.2 0 0
      ⟨PieceKind.king, Color.black, (0, 0), true⟩ (by decide) (by decide) (by decide) rfl⟩

/-- C2 (amended): for a king standing on column 4 (the only placement for
which "two columns toward a corner rook" describes the hard-coded
destinations), a castling candidate is generated if and only if the king's
`has_moved` is false, the corresponding corner square of the king's row
holds a Rook with `has_moved` false, every square strictly between king and
rook is empty, and none of the king's current, transit, and final squares
is attacked; if any of those squares is attacked the candidate is omitted
entirely. -/
theorem castling_moves_iff (b : Board) (k : Piece) (row : Int)
    (hpos : k.pos = (row, 4)) :
    (((row, 6) : Int × Int) ∈ getCastlingMoves b k ↔
      (k.hasMoved = false ∧
       (∃ rk : Piece, getPiece b row 7 = some rk ∧ rk.kind = PieceKind.rook ∧
         rk.hasMoved = false) ∧
       getPiece b row 5 = none ∧ getPiece b row 6 = none ∧
       isPositionUnderAttack b row 4 k.color = false ∧
       isPositionUnderAttack b row 5 k.color = false ∧
       isPositionUnderAttack b row 6 k.color = false)) ∧
    (((row, 2) : Int × Int) ∈ getCastlingMoves b k ↔
      (k.hasMoved = false ∧
       (∃ rk : Piece, getPiece b row 0 = some rk ∧ rk.kind = PieceKind.rook ∧
         rk.hasMoved = false) ∧
       getPiece b row 1 = none ∧ getPiece b row 2 = none ∧ getPiece b row 3 = none ∧
       isPositionUnderAttack b row 4 k.color = false ∧
       isPositionUnderAttack b row 3 k.color = false ∧
       isPositionUnderAttack b row 2 k.color = false)) := by
  obtain ⟨kk, kc, kp, khm⟩ := k
  simp only at hpos
  subst hpos
  cases khm with
  | true => constructor <;> simp [getCastlingMoves]
  | false =>
    rcases h7 : getPiece b row 7 with _ | rk <;> rcases h0 : getPiece b row 0 with _ | rq <;>
      simp only [getCastlingMoves, h7, h0, Bool.false_eq_true, if_false] <;>
      constructor <;>
      (try split_ifs) <;>
      (try simp_all [Prod.mk.injEq]) <;>
      (try omega)

def offsetKingBoard : Board :=
  { grid := fun r c =>
      if r = 7 ∧ c = 3 then some ⟨PieceKind.king, Color.white, (7, 3), false⟩
      else if r = 7 ∧ c = 7 then some ⟨PieceKind.rook, Color.white, (7, 7), false⟩
      else none,
    lastMove := none }

theorem castling_moves_iff_counterexample :
    (⟨PieceKind.king, Color.white, (7, 3), false⟩ : Piece).hasMoved = false ∧
    getPiece offsetKingBoard 7 7 = some ⟨PieceKind.rook, Color.white, (7, 7), false⟩ ∧
    getPiece offsetKingBoard 7 4 = none ∧ getPiece offsetKingBoard 7 5 = none ∧
    getPiece offsetKingBoard 7 6 = none ∧
    isPositionUnderAttack offsetKingBoard 7 3 Color.white = false ∧
    isPositionUnderAttack offsetKingBoard 7 4 Color.white = false ∧
    isPositionUnderAttack offsetKingBoard 7 5 Color.white = false ∧
    ((7, 5) : Int × Int) ∉
      getCastlingMoves offsetKingBoard ⟨PieceKind.king, Color.white, (7, 3), false⟩ ∧
    ((7, 6) : Int × Int) ∈
      getCastlingMoves offsetKingBoard ⟨PieceKind.king, Color.white, (7, 3), false⟩ := by
  decide

def castleBoard : Board :=
  { grid := fun r c =>
      if r = 7 ∧ c = 4 then some ⟨PieceKind.king, Color.white, (7, 4), false⟩
      else if r = 7 ∧ c = 7 then some ⟨PieceKind.rook, Color.white, (7, 7), false⟩
      else if r = 7 ∧ c = 0 then some ⟨PieceKind.rook, Color.white, (7, 0), false⟩
      else none,
    lastMove := none }

theorem castling_moves_iff_witness :
    (⟨PieceKind.king, Color.white, (7, 4), false⟩ : Piece).pos = (7, 4) ∧
    ((7, 6) : Int × Int) ∈
      getCastlingMoves castleBoard ⟨PieceKind.king, Color.white, (7, 4), false⟩ :=
  ⟨rfl,
    (castling_moves_iff castleBoard ⟨PieceKind.king, Color.white, (7, 4), false⟩ 7 rfl).1.mpr
      ⟨rfl, ⟨⟨PieceKind.rook, Color.white, (7, 7), false⟩, by decide, rfl, rfl⟩,
        by decide, by decide, by decide, by decide, by decide⟩⟩

/-- C4: the en-passant destination `(pawn row + direction, last move's
destination column)` is produced by `get_en_passant_moves` (and hence
appears in the pawn's generated move list) if and only if `last_move`
records a Pawn of the opposite side that moved exactly two rows and landed
in the pawn's row at an adjacent column; and since `move_piece` overwrites
`last_move` on every execution, one ply after a move that is not itself a
two-row pawn advance no pawn has any en-passant move. -/
theorem en_passant_characterization :
    (∀ (b : Board) (p : Piece) (d : Int × Int),
      d ∈ getEnPassantMoves b p ↔
      ∃ lf lt : Int × Int, ∃ lp : Piece, b.lastMove = some (lf, lt, lp) ∧
        lp.kind = PieceKind.pawn ∧ (lf.1 - lt.1).natAbs = 2 ∧
        p.pos.1 = lt.1 ∧ (p.pos.2 - lt.2).natAbs = 1 ∧ p.color ≠ lp.color ∧
        d = (p.pos.1 + pawnDirection p.color, lt.2)) ∧
    (∀ (b : Board) (p : Piece) (d : Int × Int),
      d ∈ getEnPassantMoves b p → d ∈ pawnMoves p b) ∧
    (∀ (b : Board) (fromP toP : Int × Int) (p : Piece),
      getPiece b fromP.1 fromP.2 = some p →
      (movePiece b fromP toP).2.lastMove =
        some (fromP, toP, { p with pos := toP, hasMoved := true })) ∧
    (∀ (b : Board) (fromP toP : Int × Int) (p : Piece),
      getPiece b fromP.1 fromP.2 = some p →
      (p.kind ≠ PieceKind.pawn ∨ (fromP.1 - toP.1).natAbs ≠ 2) →
      ∀ q : Piece, getEnPassantMoves (movePiece b fromP toP).2 q = []) := by
  have hlast : ∀ (b : Board) (fromP toP : Int × Int) (p : Piece),
      getPiece b fromP.1 fromP.2 = some p →
      (movePiece b fromP toP).2.lastMove =
        some (fromP, toP, { p with pos := toP, hasMoved := true }) := by
    intro b fromP toP p h
    simp only [movePiece, h]
  refine ⟨?_, ?_, hlast, ?_⟩
  · intro b p d
    constructor
    · intro hd
      rcases hl : b.lastMove with _ | ⟨lf, lt, lp⟩
      · simp only [getEnPassantMoves, hl] at hd
        cases hd
      · simp only [getEnPassantMoves, hl] at hd
        by_cases h1 : lp.kind ≠ PieceKind.pawn
        · rw [if_pos h1] at hd; cases hd
        · rw [if_neg h1] at hd
          by_cases h2 : (lf.1 - lt.1).natAbs ≠ 2
          · rw [if_pos h2] at hd; cases hd
          · rw [if_neg h2] at hd
            by_cases h3 : p.pos.1 ≠ lt.1 ∨ (p.pos.2 - lt.2).natAbs ≠ 1
            · rw [if_pos h3] at hd; cases hd
            · rw [if_neg h3] at hd
              by_cases h4 : p.color = lp.color
              · rw [if_pos h4] at hd; cases hd
              · rw [if_neg h4] at hd
                rw [List.mem_singleton] at hd
                push_neg at h1 h2 h3
                exact ⟨lf, lt, lp, rfl, h1, h2, h3.1, h3.2, h4, hd⟩
    · rintro ⟨lf, lt, lp, hl, h1, h2, h3, h4, h5, h6⟩
      simp only [getEnPassantMoves, hl]
      rw [if_neg (by simp [h1]), if_neg (by simp [h2]), if_neg (by simp [h3, h4]),
        if_neg h5, List.mem_singleton]
      exact h6
  · intro b p d hd
    rw [pawnMoves]
    simp only [List.mem_append]
    exact Or.inr hd
  · intro b fromP toP p h hcase q
    simp only [getEnPassantMoves, hlast b fromP toP p h]
    rcases hcase with h' | h'
    · simp [h']
    · split_ifs <;> simp_all

def epBoard : Board :=
  { grid := fun r c =>
      if r = 3 ∧ c = 4 then some ⟨PieceKind.pawn, Color.white, (3, 4), true⟩
      else if r = 3 ∧ c = 3 then some ⟨PieceKind.pawn, Color.black, (3, 3), true⟩
      else none,
    lastMove := some ((1, 3), (3, 3), ⟨PieceKind.pawn, Color.black, (3, 3), true⟩) }

theorem en_passant_characterization_witness :
    ((2, 3) : Int × Int) ∈
      getEnPassantMoves epBoard ⟨PieceKind.pawn, Color.white, (3, 4), true⟩ ∧
    ((2, 3) : Int × Int) ∈
      pawnMoves ⟨PieceKind.pawn, Color.white, (3, 4), true⟩ epBoard :=
  have h1 : ((2, 3) : Int × Int) ∈
      getEnPassantMoves epBoard ⟨PieceKind.pawn, Color.white, (3, 4), true⟩ :=
    (en_passant_characterization.1 epBoard ⟨PieceKind.pawn, Color.white, (3, 4), true⟩
        (2, 3)).mpr
      ⟨(1, 3), (3, 3), ⟨PieceKind.pawn, Color.black, (3, 3), true⟩, rfl, rfl, by decide,
        rfl, by decide, by decide, by decide⟩
  ⟨h1, en_passant_characterization.2.1 epBoard
    ⟨PieceKind.pawn, Color.white, (3, 4), true⟩ (2, 3) h1⟩

theorem switchTurn_board (g : Game) : (switchTurn g).board = g.board := by
  rw [switchTurn]
  split_ifs <;> rfl

/-- C5: when `make_move` executes a move whose mover is a Pawn landing on
the opponent's home rank (row 0 for White, row 7 for Black), the
destination square afterwards holds a freshly constructed Queen of the
mover's side — not a Pawn — and no other promotion choice is offered. -/
theorem promotion_to_queen (g : Game) (fromP toP : Int × Int) (p : Piece)
    (h : getPiece g.board fromP.1 fromP.2 = some p)
    (hk : p.kind = PieceKind.pawn)
    (hr : (p.color = Color.white ∧ toP.1 = 0) ∨ (p.color = Color.black ∧ toP.1 = 7)) :
    getPiece (makeMove g fromP toP).board toP.1 toP.2 =
      some ⟨PieceKind.queen, p.color, toP, false⟩ := by
  simp only [makeMove, h]
  rw [if_pos ⟨hk, hr⟩, switchTurn_board]
  simp [getPiece, setCell]

def promoGame : Game :=
  { board :=
      { grid := fun r c =>
          if r = 1 ∧ c = 0 then some ⟨PieceKind.pawn, Color.white, (1, 0), true⟩
          else none,
        lastMove := none },
    currentTurn := Color.white, gameOver := false, winner := none }

theorem promotion_to_queen_witness :
    getPiece promoGame.board 1 0 = some ⟨PieceKind.pawn, Color.white, (1, 0), true⟩ ∧
    getPiece (makeMove promoGame (1, 0) (0, 0)).board 0 0 =
      some ⟨PieceKind.queen, Color.white, (0, 0), false⟩ :=
  ⟨by decide,
    promotion_to_queen promoGame (1, 0) (0, 0) ⟨PieceKind.pawn, Color.white, (1, 0), true⟩
      (by decide) rfl (Or.inl ⟨rfl, rfl⟩)⟩

def pieceKindAt (b : Board) (pos : Int × Int) (k : PieceKind) : Bool :=
  match getPiece b pos.1 pos.2 with
  | some p => decide (p.kind = k)
  | none => false

/-- C6: on the freshly initialized board the union of legal moves over all
White pieces contains exactly 20 moves: 16 pawn moves and 4 knight moves. -/
theorem initial_position_twenty_moves :
    ((getAllValidMoves initBoard Color.white).map (fun e => e.2.length)).sum = 20 ∧
    (((getAllValidMoves initBoard Color.white).filter
        (fun e => pieceKindAt initBoard e.1 PieceKind.pawn)).map
      (fun e => e.2.length)).sum = 16 ∧
    (((getAllValidMoves initBoard Color.white).filter
        (fun e => pieceKindAt initBoard e.1 PieceKind.knight)).map
      (fun e => e.2.length)).sum = 4 := by
  refine ⟨by decide, by decide, by decide⟩

def gridCoherent (g : Int → Int → Option Piece) : Prop :=
  ∀ r c : Int, ∀ p : Piece, g r c = some p → p.pos = (r, c)

theorem gridCoherent_setCell {g : Int → Int → Option Piece} (hg : gridCoherent g)
    {a b' : Int} {v : Option Piece} (hv : ∀ p : Piece, v = some p → p.pos = (a, b')) :
    gridCoherent (setCell g a b' v) := by
  intro r c p h
  rw [setCell_apply] at h
  split_ifs at h with hc
  · obtain ⟨rfl, rfl⟩ := hc
    exact hv p h
  · exact hg r c p h

theorem epRemovalGrid_coherent {b : Board} (hb : gridCoherent b.grid)
    (piece : Piece) (fromP toP : Int × Int) :
    gridCoherent (epRemovalGrid b piece fromP toP) := by
  rw [epRemovalGrid]
  split_ifs
  · exact gridCoherent_setCell hb (fun p hp => by cases hp)
  · exact hb

theorem castlingRookGrid_coherent {g1 : Int → Int → Option Piece}
    (hg : gridCoherent g1) (piece : Piece) (fromP toP : Int × Int) :
    gridCoherent (castlingRookGrid g1 piece fromP toP) := by
  rw [castlingRookGrid]
  split_ifs
  · rcases h7 : g1 fromP.1 7 with _ | rk
    · exact hg
    · refine gridCoherent_setCell (gridCoherent_setCell hg ?_) ?_
      · intro p hp
        cases hp
      · intro p hp
        injection hp with hp
        subst hp
        rfl
  · rcases h0 : g1 fromP.1 0 with _ | rk
    · exact hg
    · refine gridCoherent_setCell (gridCoherent_setCell hg ?_) ?_
      · intro p hp
        cases hp
      · intro p hp
        injection hp with hp
        subst hp
        rfl
  · exact hg

theorem movePiece_coherent (b : Board) (fromP toP : Int × Int)
    (h : gridCoherent b.grid) : gridCoherent (movePiece b fromP toP).2.grid := by
  rcases hg : getPiece b fromP.1 fromP.2 with _ | piece
  · simpa only [movePiece, hg] using h
  · simp only [movePiece, hg]
    refine gridCoherent_setCell (gridCoherent_setCell ?_ ?_) ?_
    · exact castlingRookGrid_coherent (epRemovalGrid_coherent h piece fromP toP)
        piece fromP toP
    · intro p hp
      injection hp with hp
      subst hp
      rfl
    · intro p hp
      cases hp

theorem makeMove_coherent (g : Game) (fromP toP : Int × Int)
    (h : gridCoherent g.board.grid) : gridCoherent (makeMove g fromP toP).board.grid := by
  rcases hg : getPiece g.board fromP.1 fromP.2 with _ | p
  · simp only [makeMove, hg, switchTurn_board]
    exact movePiece_coherent _ _ _ h
  · simp only [makeMove, hg]
    split_ifs with hc
    · rw [switchTurn_board]
      refine gridCoherent_setCell (movePiece_coherent _ _ _ h) ?_
      intro q hq
      injection hq with hq
      subst hq
      rfl
    · rw [switchTurn_board]
      exact movePiece_coherent _ _ _ h

theorem backRank_pos (color : Color) (r c : Int) (p : Piece)
    (h : backRank color r c = some p) : p.pos = (r, c) := by
  rw [backRank] at h
  split_ifs at h <;> (injection h with h; subst h; rfl)

theorem initBoard_coherent : gridCoherent initBoard.grid := by
  intro r c p h
  simp only [initBoard] at h
  split_ifs at h with hb0 h1 h6 h0 h7 <;>
    first
      | (injection h with h; subst h; subst h1; rfl)
      | (injection h with h; subst h; subst h6; rfl)
      | (subst h0; exact backRank_pos _ _ _ _ h)
      | (subst h7; exact backRank_pos _ _ _ _ h)
      | injection h

/-- C8: every game state reachable from the initial setup through executed
moves (including capture, en-passant removal, castling rook relocation and
promotion replacement) keeps the board coherent: every piece stored in a
grid cell has its cached position field equal to that cell's coordinates,
and consequently no piece value occupies two distinct cells (each cell
holds at most one piece by construction of the `Option`-valued grid). -/
theorem reachable_position_coherent (g : Game) (hg : Reachable g) :
    (∀ r c : Int, ∀ p : Piece, g.board.grid r c = some p → p.pos = (r, c)) ∧
    (∀ r c r' c' : Int, ∀ p : Piece, g.board.grid r c = some p →
      g.board.grid r' c' = some p → r = r' ∧ c = c') := by
  have main : gridCoherent g.board.grid := by
    induction hg with
    | init => exact initBoard_coherent
    | step g' fromP toP p hr hp hcol hmem hgo ih => exact makeMove_coherent g' fromP toP ih
  refine ⟨main, ?_⟩
  intro r c r' c' p h1 h2
  have e1 := main r c p h1
  have e2 := main r' c' p h2
  rw [e1] at e2
  have e3 := Prod.ext_iff.mp e2
  exact ⟨e3.1, e3.2⟩

theorem reachable_position_coherent_witness :
    initGame.board.grid 0 0 = some ⟨PieceKind.rook, Color.black, (0, 0), false⟩ ∧
    (⟨PieceKind.rook, Color.black, (0, 0), false⟩ : Piece).pos = (0, 0) :=
  ⟨by decide,
    (reachable_position_coherent initGame Reachable.init).1 0 0
      ⟨PieceKind.rook, Color.black, (0, 0), false⟩ (by decide)⟩

end Chess

namespace Chess

/-- C10: the attack detector classifies a square as attacked by an opposing
pawn exactly when the square appears in that pawn's generated move list
(here isolated on a board whose only opposing piece is the pawn, with no
recorded last move): an empty square directly in front of the pawn — one
ahead, or two ahead when the double-step is available — is reported as
attacked, while an empty forward-diagonal square is not. -/
theorem pawn_attack_profile (b : Board) (r c : Int) (pw : Piece) (color : Color)
    (hb : 0 ≤ r ∧ r < 8 ∧ 0 ≤ c ∧ c < 8)
    (hget : getPiece b r c = some pw)
    (hpos : pw.pos = (r, c))
    (hkind : pw.kind = PieceKind.pawn)
    (hcol : pw.color = opposite color)
    (honly : ∀ rc ∈ squaresList, ∀ q : Piece, getPiece b rc.1 rc.2 = some q →
      q.color = opposite color → rc = (r, c))
    (hlm : b.lastMove = none) :
    (∀ row col : Int,
      isPositionUnderAttack b row col color = true ↔ (row, col) ∈ pawnMoves pw b) ∧
    (getPiece b (r + pawnDirection pw.color) c = none →
      0 ≤ r + pawnDirection pw.color → r + pawnDirection pw.color < 8 →
      isPositionUnderAttack b (r + pawnDirection pw.color) c color = true) ∧
    (pw.hasMoved = false →
      getPiece b (r + pawnDirection pw.color) c = none →
      0 ≤ r + pawnDirection pw.color → r + pawnDirection pw.color < 8 →
      getPiece b (r + 2 * pawnDirection pw.color) c = none →
      isPositionUnderAttack b (r + 2 * pawnDirection pw.color) c color = true) ∧
    (∀ dc : Int, (dc = -1 ∨ dc = 1) →
      getPiece b (r + pawnDirection pw.color) (c + dc) = none →
      isPositionUnderAttack b (r + pawnDirection pw.color) (c + dc) color = false) := by
  obtain ⟨kk, kcol, kpos, khm⟩ := pw
  simp only at hpos hkind hcol
  subst hkind
  subst hpos
  subst hcol
  have hiff : ∀ row col : Int, isPositionUnderAttack b row col color = true ↔
      (row, col) ∈ pawnMoves ⟨PieceKind.pawn, opposite color, (r, c), khm⟩ b := by
    intro row col
    rw [isPositionUnderAttack_iff]
    constructor
    · rintro ⟨r', c', hb', q, hq, hqcol, hcase⟩
      have heq := honly (r', c') ((mem_squaresList _).mpr hb') q hq hqcol
      have hr' : r' = r := congrArg Prod.fst heq
      have hc' : c' = c := congrArg Prod.snd heq
      subst hr'
      subst hc'
      rw [hget] at hq
      injection hq with hq
      subst hq
      rcases hcase with ⟨hk, _⟩ | ⟨hk, hmem⟩
      · cases hk
      · exact hmem
    · intro hmem
      exact ⟨r, c, hb, ⟨PieceKind.pawn, opposite color, (r, c), khm⟩, hget, rfl,
        Or.inr ⟨by simp, hmem⟩⟩
  have hvp : ∀ rr cc : Int, 0 ≤ rr → rr < 8 → 0 ≤ cc → cc < 8 →
      isValidPosition rr cc = true := by
    intro rr cc h1 h2 h3 h4
    rw [isValidPosition]
    simp only [decide_eq_true_eq]
    exact ⟨h1, h2, h3, h4⟩
  refine ⟨hiff, ?_, ?_, ?_⟩
  · intro hempty hlo hhi
    rw [hiff, pawnMoves]
    simp only [List.mem_append]
    refine Or.inl (Or.inl ?_)
    rw [hvp _ _ hlo hhi hb.2.2.1 hb.2.2.2]
    simp only [if_true]
    rw [if_pos hempty]
    exact List.mem_cons_self _ _
  · intro hnm hempty hlo hhi hempty2
    rw [hiff, pawnMoves]
    simp only [List.mem_append]
    refine Or.inl (Or.inl ?_)
    rw [hvp _ _ hlo hhi hb.2.2.1 hb.2.2.2]
    simp only [if_true]
    rw [if_pos hempty]
    refine List.mem_cons_of_mem _ ?_
    subst hnm
    rw [if_pos (by simp), if_pos hempty2]
    exact List.mem_singleton.mpr rfl
  · intro dc hdc hempty
    cases hA : isPositionUnderAttack b (r + pawnDirection (opposite color)) (c + dc) color with
    | false => rfl
    | true =>
      exfalso
      have hmem := (hiff _ _).mp hA
      rw [pawnMoves] at hmem
      simp only [List.mem_append] at hmem
      rcases hmem with (hf | hcap) | hep
      · revert hf
        split_ifs <;> intro hf <;>
          simp only [List.mem_cons, List.mem_singleton, List.not_mem_nil, or_false] at hf <;>
          first
            | (rcases hf with hf | hf <;>
                (have h2 := congrArg Prod.snd hf; simp only at h2; omega))
            | (have h2 := congrArg Prod.snd hf; simp only at h2; omega)
      · rw [List.mem_filterMap] at hcap
        obtain ⟨dc', hdcm, hfe⟩ := hcap
        split_ifs at hfe with hv'
        · rcases hg' : getPiece b (r + pawnDirection (opposite color)) (c + dc') with _ | t
          · simp only [hg'] at hfe
            cases hfe
          · simp only [hg'] at hfe
            split_ifs at hfe with htc
            · injection hfe with hfe
              have h2 := congrArg Prod.snd hfe
              simp only at h2
              have hdce : dc' = dc := by omega
              rw [hdce, hempty] at hg'
              cases hg'
      · simp [getEnPassantMoves, hlm] at hep

end Chess

namespace Chess

def pawnOnlyBoard : Board :=
  { grid := fun r c =>
      if r = 3 ∧ c = 3 then some ⟨PieceKind.pawn, Color.black, (3, 3), false⟩ else none,
    lastMove := none }

theorem pawn_attack_profile_witness :
    getPiece pawnOnlyBoard 4 3 = none ∧
    isPositionUnderAttack pawnOnlyBoard 4 3 Color.white = true ∧
    isPositionUnderAttack pawnOnlyBoard 4 4 Color.white = false := by
  have H := pawn_attack_profile pawnOnlyBoard 3 3
    ⟨PieceKind.pawn, Color.black, (3, 3), false⟩ Color.white (by decide) (by decide)
    rfl rfl rfl
    (by
      intro rc hrc q hq hqc
      obtain ⟨a, b2⟩ := rc
      by_cases h33 : a = 3 ∧ b2 = 3
      · rw [Prod.mk.injEq]
        exact h33
      · exfalso
        simp only [pawnOnlyBoard, getPiece] at hq
        rw [if_neg h33] at hq
        cases hq)
    rfl
  refine ⟨by decide, ?_, ?_⟩
  · have h := H.2.1 (by decide) (by decide) (by decide)
    exact h
  · have h := H.2.2.2 1 (Or.inr rfl) (by decide)
    exact h

end Chess
